import Mathlib

/-!
Verification development for the argument-retrieval-for-comparative-questions
pipelines.  The Python sources under `src/` are shallowly embedded: float
scores become exact rationals, Python dicts become association lists built in
insertion order, and code that can raise (KeyError, ZeroDivisionError, a
missing name) returns `Except`/`Option`.  The embedded fragments are:

* `HybridPipeline.__hybrid_rerank` (src/src/hybrid_pipeline.py, and the older
  variant in src/src/HybridPipeline.py which truncates to the literal 40);
* `Pipeline.__create_scores_dict`, `Pipeline.__remove_punctuation` and
  `Pipeline.save_trec` (src/src/Pipeline.py);
* `BasePipeline.save_trec` (src/src/BasePipeline.py);
* the evaluation tail of `HybridPipeline.compute_results`
  (src/src/hybrid_pipeline.py).
-/

namespace ArgRetrieval

/-- Document identifiers are opaque strings (spec §3 DocumentId). -/
abbrev DocId := String

/-- Relevance scores; the Python float scores are modelled as exact rationals. -/
abbrev Score := ℚ

/-- A ranked candidate list: the (docid, score) tuples a search returns for one
topic. -/
abbrev CandidateList := List (DocId × Score)

/-- The exceptions the embedded Python fragments can raise. -/
inductive PyError where
  | keyError
  | zeroDivisionError
  deriving DecidableEq

/-- Association-list lookup, the value of the first pair whose key matches.
Dictionaries built by `dictUpdate` bind each key once, so this is Python dict
lookup on them. -/
def alookup {α β : Type} [DecidableEq α] : List (α × β) → α → Option β
  | [], _ => none
  | p :: rest, a => if a = p.1 then some p.2 else alookup rest a

/-- One step of Python dict construction: bind key `a` to value `b`,
overwriting in place when `a` is already bound, appending otherwise (dict
insertion order). -/
def dictUpdate {α β : Type} [DecidableEq α] (acc : List (α × β)) (a : α) (b : β) :
    List (α × β) :=
  if a ∈ acc.map Prod.fst then acc.map (fun p => if p.1 = a then (a, b) else p)
  else acc ++ [(a, b)]

/-- The Python dict comprehension `{k: v for (k, v) in l}`: a key sits at the
position of its first occurrence, the value of its last occurrence wins. -/
def pyDict {α β : Type} [DecidableEq α] (l : List (α × β)) : List (α × β) :=
  l.foldl (fun acc p => dictUpdate acc p.1 p.2) []

/-- `min(l) if len(l) > 0 else dflt` (lines 63-66 of hybrid_pipeline.py use
default 0 for the min). -/
def pyMin (l : List Score) (dflt : Score) : Score :=
  match l with
  | [] => dflt
  | x :: xs => xs.foldl min x

/-- `max(l) if len(l) > 0 else dflt` (default 1 for the max). -/
def pyMax (l : List Score) (dflt : Score) : Score :=
  match l with
  | [] => dflt
  | x :: xs => xs.foldl max x

/-- `set(dense_hits.keys()) | set(sparse_hits.keys())`.  Python's set iteration
order is unspecified; the model fixes dense-keys-first order.  No settled claim
depends on the iteration order (scores decide the output order). -/
def unionKeys (dkeys skeys : List DocId) : List DocId :=
  dkeys ++ skeys.filter (fun d => decide (d ∉ dkeys))

/-- Line 82 of hybrid_pipeline.py: `alpha * sparse + dense` by default, or
`sparse + alpha * dense` when `weight_on_dense` is set. -/
def combine (alpha : Score) (weight_on_dense : Bool) (sparse_score dense_score : Score) :
    Score :=
  if weight_on_dense then sparse_score + alpha * dense_score
  else alpha * sparse_score + dense_score

/-- The per-document body of the rerank loop (lines 68-83 of
hybrid_pipeline.py): pick `(sparse_score, dense_score)`, imputing the missing
side's score as that side's min; under normalization rescale each side to
`(x - (min+max)/2) / (max-min)` — Python raises ZeroDivisionError when the
executed division has a zero range — then combine with `alpha`.  `doc` is
always drawn from the union of the two key sets, so in the first branch the
sparse lookup succeeds and the `.getD 0` default is never used (Python would
raise KeyError there). -/
def fuse_doc (dense_hits sparse_hits : List (DocId × Score))
    (min_dense max_dense min_sparse max_sparse alpha : Score)
    (normalization weight_on_dense : Bool) (doc : DocId) : Except PyError Score :=
  let raw : Score × Score :=
    match alookup dense_hits doc with
    | none => ((alookup sparse_hits doc).getD 0, min_dense)
    | some dsc =>
      match alookup sparse_hits doc with
      | none => (min_sparse, dsc)
      | some ssc => (ssc, dsc)
  if normalization then
    if max_sparse = min_sparse ∨ max_dense = min_dense then
      Except.error PyError.zeroDivisionError
    else
      Except.ok (combine alpha weight_on_dense
        ((raw.1 - (min_sparse + max_sparse) / 2) / (max_sparse - min_sparse))
        ((raw.2 - (min_dense + max_dense) / 2) / (max_dense - min_dense)))
  else
    Except.ok (combine alpha weight_on_dense raw.1 raw.2)

/-- The for-loop of lines 67-83: score each document of the union in order,
stopping at the first raised exception. -/
def mapScores (g : DocId → Except PyError Score) :
    List DocId → Except PyError (List (DocId × Score))
  | [] => Except.ok []
  | d :: rest =>
    match g d with
    | Except.error e => Except.error e
    | Except.ok s =>
      match mapScores g rest with
      | Except.error e => Except.error e
      | Except.ok tail => Except.ok ((d, s) :: tail)

/-- Descending order on the combined score — the comparison behind
`sorted(..., key=lambda x: x[1], reverse=True)`. -/
def scoreGe (a b : DocId × Score) : Prop := b.2 ≤ a.2

instance : DecidableRel scoreGe := fun a b => inferInstanceAs (Decidable (b.2 ≤ a.2))

instance : IsTotal (DocId × Score) scoreGe := ⟨fun a b => le_total b.2 a.2⟩

instance : IsTrans (DocId × Score) scoreGe := ⟨fun _ _ _ h1 h2 => le_trans h2 h1⟩

/-- The per-topic body of `HybridPipeline.__hybrid_rerank`
(src/src/hybrid_pipeline.py lines 61-85): build dict views of both sides, take
per-side min/max (0 and 1 when a side is empty), score every document of the
union of the two key sets, sort by descending combined score and keep the
first `k`. -/
def hybrid_rerank_topic (dense sparse : CandidateList) (alpha : Score) (k : ℕ)
    (normalization weight_on_dense : Bool) : Except PyError (List (DocId × Score)) :=
  let dense_hits := pyDict dense
  let sparse_hits := pyDict sparse
  let min_dense_score := pyMin (dense_hits.map Prod.snd) 0
  let max_dense_score := pyMax (dense_hits.map Prod.snd) 1
  let min_sparse_score := pyMin (sparse_hits.map Prod.snd) 0
  let max_sparse_score := pyMax (sparse_hits.map Prod.snd) 1
  let docs := unionKeys (dense_hits.map Prod.fst) (sparse_hits.map Prod.fst)
  match mapScores (fuse_doc dense_hits sparse_hits min_dense_score max_dense_score
      min_sparse_score max_sparse_score alpha normalization weight_on_dense) docs with
  | Except.error e => Except.error e
  | Except.ok scored => Except.ok ((List.insertionSort scoreGe scored).take k)

/-- The per-topic body of the older `HybridPipeline.__hybrid_rerank`
(src/src/HybridPipeline.py lines 54-78): the same computation, except that
line 78 truncates with the hardcoded literal `[:40]`; the `k` parameter is
not used. -/
def hybrid_rerank_topic_old (dense sparse : CandidateList) (alpha : Score) (_k : ℕ)
    (normalization weight_on_dense : Bool) : Except PyError (List (DocId × Score)) :=
  let dense_hits := pyDict dense
  let sparse_hits := pyDict sparse
  let min_dense_score := pyMin (dense_hits.map Prod.snd) 0
  let max_dense_score := pyMax (dense_hits.map Prod.snd) 1
  let min_sparse_score := pyMin (sparse_hits.map Prod.snd) 0
  let max_sparse_score := pyMax (sparse_hits.map Prod.snd) 1
  let docs := unionKeys (dense_hits.map Prod.fst) (sparse_hits.map Prod.fst)
  match mapScores (fuse_doc dense_hits sparse_hits min_dense_score max_dense_score
      min_sparse_score max_sparse_score alpha normalization weight_on_dense) docs with
  | Except.error e => Except.error e
  | Except.ok scored => Except.ok ((List.insertionSort scoreGe scored).take 40)

/-- `HybridPipeline.__hybrid_rerank` over the whole results dicts (lines
58-86): iterate the dense keys in order; `sparse_results[key]` raises KeyError
when the key is absent; the first raised exception aborts the call.  The two
results dicts are modelled as association lists with the dict's unique keys. -/
def hybrid_rerank (dense_results sparse_results : List (String × CandidateList))
    (alpha : Score) (k : ℕ) (normalization weight_on_dense : Bool) :
    Except PyError (List (String × List (DocId × Score))) :=
  match dense_results with
  | [] => Except.ok []
  | e :: rest =>
    match alookup sparse_results e.1 with
    | none => Except.error PyError.keyError
    | some sl =>
      match hybrid_rerank_topic e.2 sl alpha k normalization weight_on_dense with
      | Except.error err => Except.error err
      | Except.ok out =>
        match hybrid_rerank rest sparse_results alpha k normalization weight_on_dense with
        | Except.error err => Except.error err
        | Except.ok tail => Except.ok ((e.1, out) :: tail)

/-! ### Result assembly: `Pipeline.__create_scores_dict` and `save_trec` -/

/-- Python `int()` restricted to the strings that occur as positional batch
keys: non-empty digit strings; anything else raises ValueError (`none`).
(Python's `int` also accepts signs and whitespace, and a negative index would
wrap around in `topics[...]`; no such key arises from the search collaborators,
whose batch keys are stringified non-negative positions.) -/
def pyInt? (s : String) : Option ℕ :=
  if s.toList ≠ [] ∧ s.toList.all (fun c => c.isDigit) then
    some (s.toList.foldl (fun n c => 10 * n + (c.toNat - 48)) 0)
  else none

/-- One iteration of `Pipeline.__create_scores_dict` (src/src/Pipeline.py lines
108-115): remap positional key `key` to `topics[int(key)]` (ValueError /
IndexError modelled as `none`), build the dict view of the candidate list and
store `{ids: keys, scores: values}` under the topic id.  `data[topic_id] = ...`
is a Python dict write, so a repeated topic id overwrites. -/
def create_scores_dict_step (topics : List ℤ)
    (data : List (ℤ × (List DocId × List Score))) (e : String × CandidateList) :
    Option (List (ℤ × (List DocId × List Score))) :=
  match pyInt? e.1 with
  | none => none
  | some i =>
    match topics.get? i with
    | none => none
    | some topic_id =>
      some (dictUpdate data topic_id ((pyDict e.2).map Prod.fst, (pyDict e.2).map Prod.snd))

/-- `Pipeline.__create_scores_dict` (src/src/Pipeline.py lines 88-116): iterate
the positional result keys in order and accumulate the per-topic
`{ids, scores}` dictionary. -/
def create_scores_dict (scores : List (String × CandidateList)) (topics : List ℤ) :
    Option (List (ℤ × (List DocId × List Score))) :=
  scores.foldlM (create_scores_dict_step topics) []

/-- One row of the canonical results table (`topic Q0 doc rank score tag`). -/
structure TrecRow where
  topic : String
  q0 : String
  doc : DocId
  rank : ℕ
  score : Score
  tag : String
  deriving DecidableEq

/-- The row `Pipeline.save_trec` builds at index `i` of a topic's ids list
(src/src/Pipeline.py lines 181-188): rank is `i+1`, the score is
`scores[i]`.  The `getD` defaults are unreachable for `i < ids.length` inputs
whose two lists have equal length (Python would raise IndexError otherwise). -/
def trec_row (model_name : String) (key : ℤ) (ids : List DocId) (scores : List Score)
    (i : ℕ) : TrecRow :=
  { topic := toString key, q0 := "Q0", doc := ids.getD i "", rank := i + 1,
    score := scores.getD i 0, tag := model_name }

/-- `Pipeline.save_trec` row assembly (src/src/Pipeline.py lines 175-189): for
each topic, one row per position of its ids list, appended inside the inner
loop. -/
def save_trec_rows (model_name : String) (data : List (ℤ × (List DocId × List Score))) :
    List TrecRow :=
  data.flatMap (fun e => (List.range e.2.1.length).map (trec_row model_name e.1 e.2.1 e.2.2))

/-- One outer iteration of `BasePipeline.save_trec` (src/src/BasePipeline.py
lines 39-50).  There the `self.res = self.res.append(row, ...)` statement is
indented at the level of the outer loop, outside the inner `for i in range(...)`
loop, so each topic appends only the final value of the Python variable `row`:
the topic's last row when it has ids, otherwise the row leaked from a previous
topic; if no row was ever assigned Python raises NameError (modelled `none`).
The carried state is (rows emitted so far, last value of `row`).  BasePipeline
stores the raw key in the topic column; the model renders it with `toString`
to reuse `TrecRow`, which does not affect any settled claim. -/
def base_save_trec_step (model_name : String)
    (st : List TrecRow × Option TrecRow) (e : ℤ × (List DocId × List Score)) :
    Option (List TrecRow × Option TrecRow) :=
  let n := e.2.1.length
  let last := if n = 0 then st.2 else some (trec_row model_name e.1 e.2.1 e.2.2 (n - 1))
  match last with
  | none => none
  | some r => some (st.1 ++ [r], some r)

/-- `BasePipeline.save_trec` row assembly (src/src/BasePipeline.py lines
30-55), with the misplaced append reproduced faithfully. -/
def base_save_trec_rows (model_name : String)
    (data : List (ℤ × (List DocId × List Score))) : Option (List TrecRow) :=
  (data.foldlM (base_save_trec_step model_name) ([], none)).map Prod.fst

/-! ### Query cleaning: `Pipeline.__remove_punctuation` -/

/-- Membership in Python's `string.punctuation`: exactly the ASCII characters
in the ranges 33-47, 58-64, 91-96 and 123-126. -/
def isPunct (c : Char) : Bool :=
  (33 ≤ c.toNat && c.toNat ≤ 47) || (58 ≤ c.toNat && c.toNat ≤ 64) ||
  (91 ≤ c.toNat && c.toNat ≤ 96) || (123 ≤ c.toNat && c.toNat ≤ 126)

/-- `q.translate(str.maketrans(string.punctuation, ' ' * len(string.punctuation)))`
(src/src/Pipeline.py line 81): every punctuation character becomes one space
character. -/
def translate_punct (cs : List Char) : List Char :=
  cs.map (fun c => if isPunct c then ' ' else c)

/-- `re.sub(' +', ' ', s)` (src/src/Pipeline.py line 83): each maximal run of
space characters collapses to a single space; other characters are kept. -/
def collapse_spaces : List Char → List Char
  | [] => []
  | [c] => [c]
  | c1 :: c2 :: rest =>
    if c1 = ' ' ∧ c2 = ' ' then collapse_spaces (c2 :: rest)
    else c1 :: collapse_spaces (c2 :: rest)

/-- `Pipeline.__remove_punctuation` on one query string (src/src/Pipeline.py
lines 61-85): substitute punctuation with blanks, then remove adjacent
spaces. -/
def remove_punctuation (q : String) : String :=
  String.mk (collapse_spaces (translate_punct q.toList))

/-- The list form: the Python method maps the cleaning over the query list. -/
def remove_punctuation_list (queries : List String) : List String :=
  queries.map remove_punctuation

/-! ### The evaluation tail of `HybridPipeline.compute_results` -/

/-- What the end of a `compute_results` run can do about the metric report. -/
inductive EvalOutcome where
  | raisedError
  | returnedReport (res_path : String)
  | returnedNone (error_printed : Bool)
  deriving DecidableEq

/-- Lines 149-157 of src/src/hybrid_pipeline.py: with `evaluate` set and a
produced results path, the nDCG report is computed and returned; with
`evaluate` set and no path, an ERROR message is printed and
`(hybrid_scores, None)` is returned — execution continues; without `evaluate`
the metric slot is `None` with nothing printed. -/
def compute_results_eval_tail (evaluate : Bool) (res_path : Option String) : EvalOutcome :=
  if evaluate then
    match res_path with
    | some p => EvalOutcome.returnedReport p
    | none => EvalOutcome.returnedNone true
  else EvalOutcome.returnedNone false

/-! ### Dictionary lemmas -/

/-- The value a Python dict keeps for a key: its last binding in the input. -/
def lastValue {α β : Type} [DecidableEq α] : List (α × β) → α → Option β
  | [], _ => none
  | p :: rest, a =>
    match lastValue rest a with
    | some b => some b
    | none => if a = p.1 then some p.2 else none

/-- First-occurrence order of a key list, as a Python dict records it. -/
def firstKeys {α : Type} [DecidableEq α] (ks : List α) : List α :=
  ks.foldl (fun acc a => if a ∈ acc then acc else acc ++ [a]) []

theorem keys_dictUpdate {α β : Type} [DecidableEq α] (acc : List (α × β)) (a : α) (b : β) :
    (dictUpdate acc a b).map Prod.fst =
      if a ∈ acc.map Prod.fst then acc.map Prod.fst else acc.map Prod.fst ++ [a] := by
  unfold dictUpdate
  by_cases h : a ∈ acc.map Prod.fst
  · rw [if_pos h, if_pos h, List.map_map]
    refine List.map_congr_left fun p _ => ?_
    by_cases hp : p.1 = a
    · simp [Function.comp, hp]
    · simp [Function.comp, hp]
  · rw [if_neg h, if_neg h]
    simp

theorem nodup_keys_dictUpdate {α β : Type} [DecidableEq α] (acc : List (α × β)) (a : α)
    (b : β) (h : (acc.map Prod.fst).Nodup) : ((dictUpdate acc a b).map Prod.fst).Nodup := by
  rw [keys_dictUpdate]
  by_cases ha : a ∈ acc.map Prod.fst
  · rwa [if_pos ha]
  · rw [if_neg ha]
    simp [List.nodup_append, h, ha]

theorem mem_dictUpdate_self {α β : Type} [DecidableEq α] (acc : List (α × β)) (a : α)
    (b : β) : (a, b) ∈ dictUpdate acc a b := by
  unfold dictUpdate
  by_cases ha : a ∈ acc.map Prod.fst
  · rw [if_pos ha]
    rcases List.mem_map.mp ha with ⟨p, hp, hpa⟩
    refine List.mem_map.mpr ⟨p, hp, ?_⟩
    rw [if_pos hpa]
  · rw [if_neg ha]
    simp

theorem mem_dictUpdate_of_ne {α β : Type} [DecidableEq α] {acc : List (α × β)} {t : α}
    {v : β} (h : (t, v) ∈ acc) (a : α) (b : β) (hne : t ≠ a) :
    (t, v) ∈ dictUpdate acc a b := by
  unfold dictUpdate
  by_cases ha : a ∈ acc.map Prod.fst
  · rw [if_pos ha]
    refine List.mem_map.mpr ⟨(t, v), h, ?_⟩
    rw [if_neg hne]
  · rw [if_neg ha]
    exact List.mem_append_left _ h

theorem overwrite_map_id {α β : Type} [DecidableEq α] {acc : List (α × β)} {a : α} (b : β)
    (h : a ∉ acc.map Prod.fst) :
    acc.map (fun p => if p.1 = a then (a, b) else p) = acc := by
  induction acc with
  | nil => rfl
  | cons p rest ih =>
    simp only [List.map_cons, List.mem_cons, not_or] at h ⊢
    rw [if_neg (fun hpa => h.1 hpa.symm), ih h.2]

theorem alookup_some_mem {α β : Type} [DecidableEq α] :
    ∀ {l : List (α × β)} {a : α} {b : β}, alookup l a = some b → a ∈ l.map Prod.fst := by
  intro l
  induction l with
  | nil => intro a b h; cases h
  | cons p rest ih =>
    intro a b h
    rw [alookup] at h
    by_cases hap : a = p.1
    · simp [hap]
    · rw [if_neg hap] at h
      exact List.mem_cons_of_mem _ (ih h)

theorem alookup_map_overwrite {α β : Type} [DecidableEq α] :
    ∀ (acc : List (α × β)) (a : α) (b : β), (acc.map Prod.fst).Nodup →
      a ∈ acc.map Prod.fst → ∀ x,
      alookup (acc.map (fun p => if p.1 = a then (a, b) else p)) x =
        if x = a then some b else alookup acc x := by
  intro acc
  induction acc with
  | nil => intro a b _ ha; simp at ha
  | cons p rest ih =>
    intro a b hnd ha x
    rw [List.map_cons, List.nodup_cons] at hnd
    by_cases hpa : p.1 = a
    · rw [List.map_cons, if_pos hpa, alookup]
      have hnotin : a ∉ rest.map Prod.fst := hpa ▸ hnd.1
      rw [overwrite_map_id b hnotin]
      by_cases hxa : x = a
      · rw [if_pos hxa, if_pos hxa]
      · rw [if_neg hxa, if_neg hxa, alookup, if_neg (hpa ▸ hxa)]
    · rw [List.map_cons, if_neg hpa, alookup]
      have hmem : a ∈ rest.map Prod.fst := by
        rcases List.mem_cons.mp (List.map_cons Prod.fst p rest ▸ ha) with h | h
        · exact absurd h.symm hpa
        · exact h
      by_cases hxp : x = p.1
      · have hxa : ¬ x = a := fun hxa => hpa (hxp ▸ hxa)
        rw [if_pos hxp, if_neg hxa, alookup, if_pos hxp]
      · rw [if_neg hxp, ih a b hnd.2 hmem x]
        by_cases hxa : x = a
        · rw [if_pos hxa, if_pos hxa]
        · rw [if_neg hxa, if_neg hxa, alookup, if_neg hxp]

theorem alookup_append_single {α β : Type} [DecidableEq α] :
    ∀ (acc : List (α × β)) (a : α) (b : β), a ∉ acc.map Prod.fst → ∀ x,
      alookup (acc ++ [(a, b)]) x = if x = a then some b else alookup acc x := by
  intro acc
  induction acc with
  | nil => intro a b _ x; simp [alookup]
  | cons p rest ih =>
    intro a b ha x
    simp only [List.map_cons, List.mem_cons, not_or] at ha
    rw [List.cons_append, alookup]
    by_cases hxp : x = p.1
    · have hxa : ¬ x = a := fun hxa => ha.1 (hxa ▸ hxp)
      rw [if_pos hxp, if_neg hxa, alookup, if_pos hxp]
    · rw [if_neg hxp, ih a b ha.2 x]
      by_cases hxa : x = a
      · rw [if_pos hxa, if_pos hxa]
      · rw [if_neg hxa, if_neg hxa, alookup, if_neg hxp]

theorem alookup_dictUpdate {α β : Type} [DecidableEq α] (acc : List (α × β)) (a : α)
    (b : β) (hnd : (acc.map Prod.fst).Nodup) (x : α) :
    alookup (dictUpdate acc a b) x = if x = a then some b else alookup acc x := by
  unfold dictUpdate
  by_cases ha : a ∈ acc.map Prod.fst
  · rw [if_pos ha]
    exact alookup_map_overwrite acc a b hnd ha x
  · rw [if_neg ha]
    exact alookup_append_single acc a b ha x

theorem foldl_dictUpdate_keys_nodup {α β : Type} [DecidableEq α] (l : List (α × β)) :
    ∀ acc : List (α × β), (acc.map Prod.fst).Nodup →
      ((l.foldl (fun acc p => dictUpdate acc p.1 p.2) acc).map Prod.fst).Nodup := by
  induction l with
  | nil => intro acc h; exact h
  | cons p rest ih =>
    intro acc h
    exact ih _ (nodup_keys_dictUpdate acc p.1 p.2 h)

theorem pyDict_keys_nodup {α β : Type} [DecidableEq α] (l : List (α × β)) :
    ((pyDict l).map Prod.fst).Nodup :=
  foldl_dictUpdate_keys_nodup l [] (by simp)

theorem foldl_dictUpdate_alookup {α β : Type} [DecidableEq α] (l : List (α × β)) :
    ∀ acc : List (α × β), (acc.map Prod.fst).Nodup → ∀ x,
      alookup (l.foldl (fun acc p => dictUpdate acc p.1 p.2) acc) x =
        match lastValue l x with
        | some b => some b
        | none => alookup acc x := by
  induction l with
  | nil => intro acc _ x; rfl
  | cons p rest ih =>
    intro acc h x
    rw [List.foldl_cons, ih _ (nodup_keys_dictUpdate acc p.1 p.2 h) x]
    cases hlv : lastValue rest x with
    | some b => simp [lastValue, hlv]
    | none =>
      simp only [lastValue, hlv]
      rw [alookup_dictUpdate acc p.1 p.2 h x]
      by_cases hx : x = p.1
      · rw [if_pos hx, if_pos hx]
      · rw [if_neg hx, if_neg hx]

theorem alookup_pyDict {α β : Type} [DecidableEq α] (l : List (α × β)) (x : α) :
    alookup (pyDict l) x = lastValue l x := by
  have h := foldl_dictUpdate_alookup l [] (by simp) x
  rw [pyDict]
  rw [h]
  cases hlv : lastValue l x with
  | some b => rfl
  | none => rfl

theorem foldl_dictUpdate_keys {α β : Type} [DecidableEq α] (l : List (α × β)) :
    ∀ acc : List (α × β),
      (l.foldl (fun acc p => dictUpdate acc p.1 p.2) acc).map Prod.fst =
        (l.map Prod.fst).foldl (fun ks a => if a ∈ ks then ks else ks ++ [a])
          (acc.map Prod.fst) := by
  induction l with
  | nil => intro acc; rfl
  | cons p rest ih =>
    intro acc
    rw [List.foldl_cons, List.map_cons, List.foldl_cons, ih, keys_dictUpdate]

theorem pyDict_keys {α β : Type} [DecidableEq α] (l : List (α × β)) :
    (pyDict l).map Prod.fst = firstKeys (l.map Prod.fst) := by
  have h := foldl_dictUpdate_keys l []
  simpa [pyDict, firstKeys] using h

theorem mem_foldl_keys_step {α : Type} [DecidableEq α] (ks : List α) :
    ∀ (acc : List α) (x : α),
      x ∈ ks.foldl (fun acc a => if a ∈ acc then acc else acc ++ [a]) acc ↔
        x ∈ acc ∨ x ∈ ks := by
  induction ks with
  | nil => intro acc x; simp
  | cons a rest ih =>
    intro acc x
    rw [List.foldl_cons, ih]
    by_cases ha : a ∈ acc
    · rw [if_pos ha]
      constructor
      · rintro (h | h)
        · exact Or.inl h
        · exact Or.inr (List.mem_cons_of_mem _ h)
      · rintro (h | h)
        · exact Or.inl h
        · rcases List.mem_cons.mp h with rfl | h
          · exact Or.inl ha
          · exact Or.inr h
    · rw [if_neg ha]
      simp only [List.mem_append, List.mem_singleton, List.mem_cons]
      tauto

theorem mem_firstKeys {α : Type} [DecidableEq α] (ks : List α) (x : α) :
    x ∈ firstKeys ks ↔ x ∈ ks := by
  rw [firstKeys, mem_foldl_keys_step]
  simp

theorem mem_pyDict_keys {α β : Type} [DecidableEq α] (l : List (α × β)) (x : α) :
    x ∈ (pyDict l).map Prod.fst ↔ x ∈ l.map Prod.fst := by
  rw [pyDict_keys, mem_firstKeys]

theorem mem_unionKeys (dkeys skeys : List DocId) (x : DocId) :
    x ∈ unionKeys dkeys skeys ↔ x ∈ dkeys ∨ x ∈ skeys := by
  rw [unionKeys, List.mem_append]
  by_cases hx : x ∈ dkeys
  · simp [hx]
  · simp [hx, List.mem_filter]

theorem nodup_unionKeys {dkeys skeys : List DocId} (hd : dkeys.Nodup) (hs : skeys.Nodup) :
    (unionKeys dkeys skeys).Nodup := by
  rw [unionKeys, List.nodup_append]
  refine ⟨hd, hs.filter _, fun x hx hxf => ?_⟩
  have := (List.mem_filter.mp hxf).2
  simp only [decide_eq_true_eq] at this
  exact this hx

theorem mapScores_ok_map_fst (g : DocId → Except PyError Score) :
    ∀ (docs : List DocId) (scored : List (DocId × Score)),
      mapScores g docs = Except.ok scored → scored.map Prod.fst = docs := by
  intro docs
  induction docs with
  | nil =>
    intro scored h
    rw [mapScores] at h
    cases h
    rfl
  | cons d rest ih =>
    intro scored h
    rw [mapScores] at h
    split at h
    · cases h
    · split at h
      · cases h
      · next tail htail =>
        cases h
        rw [List.map_cons, ih tail htail]

/-! ### Claims about the hybrid fusion -/

/-- C1 (amended): for every topic, the candidate set the hybrid fusion scores
is the union of the dense and sparse document-id sets — not their
intersection — and whenever the result limit is at least the number of
distinct document ids, the returned fused ranking contains every document id
present on either input side exactly once.  (As stated, the claim fails only
because the ranking is truncated to the result limit before being returned;
see the counterexample.) -/
theorem c1_fused_ranking_union_when_limit_suffices
    (dense sparse : CandidateList) (alpha : Score) (k : ℕ)
    (normalization weight_on_dense : Bool) (out : List (DocId × Score))
    (_hne : dense ≠ [] ∨ sparse ≠ [])
    (hk : (unionKeys ((pyDict dense).map Prod.fst) ((pyDict sparse).map Prod.fst)).length ≤ k)
    (hout : hybrid_rerank_topic dense sparse alpha k normalization weight_on_dense
      = Except.ok out) :
    ∀ d : DocId, (out.map Prod.fst).count d =
      if d ∈ dense.map Prod.fst ∨ d ∈ sparse.map Prod.fst then 1 else 0 := by
  intro d
  simp only [hybrid_rerank_topic] at hout
  split at hout
  · cases hout
  · next scored hsc =>
    cases hout
    have hfst := mapScores_ok_map_fst _ _ _ hsc
    have hnd : (unionKeys ((pyDict dense).map Prod.fst)
        ((pyDict sparse).map Prod.fst)).Nodup :=
      nodup_unionKeys (pyDict_keys_nodup dense) (pyDict_keys_nodup sparse)
    have hlen : scored.length
        = (unionKeys ((pyDict dense).map Prod.fst) ((pyDict sparse).map Prod.fst)).length := by
      rw [← hfst, List.length_map]
    have hts : List.take k (List.insertionSort scoreGe scored)
        = List.insertionSort scoreGe scored :=
      List.take_of_length_le (by rw [List.length_insertionSort, hlen]; exact hk)
    rw [hts]
    have hperm : List.Perm (List.insertionSort scoreGe scored) scored :=
      List.perm_insertionSort scoreGe scored
    rw [(hperm.map Prod.fst).count_eq d, hfst]
    by_cases hd : d ∈ dense.map Prod.fst ∨ d ∈ sparse.map Prod.fst
    · rw [if_pos hd]
      refine List.count_eq_one_of_mem hnd ?_
      rw [mem_unionKeys, mem_pyDict_keys, mem_pyDict_keys]
      exact hd
    · rw [if_neg hd]
      refine List.count_eq_zero_of_not_mem ?_
      rw [mem_unionKeys, mem_pyDict_keys, mem_pyDict_keys]
      exact hd

/-- C1 counterexample: with dense side `[(d1,3),(d2,1)]`, empty sparse side,
`alpha = 1` and result limit `k = 1`, the fused ranking is `[(d1,3)]`: the
document id d2, present on the dense side, does not occur in the output at
all, because the ranking is truncated to the result limit. -/
theorem c1_counterexample_truncation_drops_docs :
    hybrid_rerank_topic [("d1", (3:ℚ)), ("d2", 1)] [] 1 1 false false
        = Except.ok [("d1", 3)]
      ∧ List.count "d2" (List.map Prod.fst [("d1", (3:ℚ))]) = 0 := by
  constructor
  · simp only [hybrid_rerank_topic, mapScores, fuse_doc, combine, pyDict, dictUpdate,
      alookup, unionKeys, pyMin, pyMax, List.insertionSort, List.orderedInsert, scoreGe,
      String.reduceEq, List.foldl, List.map, List.filter, List.mem_cons,
      List.mem_singleton, List.not_mem_nil, or_false, false_or, decide_eq_true_eq]
    norm_num [scoreGe, List.orderedInsert, List.take]
  · rfl

/-- C1 witness: with result limit 2 the same input keeps both dense documents,
each exactly once. -/
theorem c1_witness :
    List.count "d2" (List.map Prod.fst [("d1", (3:ℚ)), ("d2", 1)])
      = if "d2" ∈ List.map Prod.fst [("d1", (3:ℚ)), ("d2", 1)]
            ∨ "d2" ∈ List.map Prod.fst ([] : CandidateList) then 1 else 0 :=
  c1_fused_ranking_union_when_limit_suffices [("d1", (3:ℚ)), ("d2", 1)] [] 1 2 false false
    [("d1", 3), ("d2", 1)] (Or.inl (by simp)) (by decide)
    (by
      simp only [hybrid_rerank_topic, mapScores, fuse_doc, combine, pyDict, dictUpdate,
        alookup, unionKeys, pyMin, pyMax, List.insertionSort, List.orderedInsert, scoreGe,
        String.reduceEq, List.foldl, List.map, List.filter, List.mem_cons,
        List.mem_singleton, List.not_mem_nil, or_false, false_or, decide_eq_true_eq]
      norm_num [scoreGe, List.orderedInsert, List.take])
    "d2"

/-- C2: on sparse candidates `[(d1,10),(d2,8)]`, dense candidates
`[(d2,0.9),(d3,0.7)]`, `alpha = 1/2`, no normalization, the weight on the
sparse side and result limit 3, the hybrid fusion imputes each missing score
as the owning side's minimum and returns d1 with score 5.7, d2 with 4.9 and
d3 with 4.7, in that order. -/
theorem c2_fusion_scenario :
    hybrid_rerank_topic [("d2", (9:ℚ)/10), ("d3", 7/10)] [("d1", 10), ("d2", 8)]
      (1/2) 3 false false
    = Except.ok [("d1", 57/10), ("d2", 49/10), ("d3", 47/10)] := by
  simp only [hybrid_rerank_topic, mapScores, fuse_doc, combine, pyDict, dictUpdate,
    alookup, unionKeys, pyMin, pyMax, List.insertionSort, List.orderedInsert, scoreGe,
    String.reduceEq, List.foldl, List.map, List.filter, List.mem_cons,
    List.mem_singleton, List.not_mem_nil, or_false, false_or, decide_eq_true_eq]
  norm_num [scoreGe, List.orderedInsert, List.take]

/-- C3: when normalization is on and one side's scores are all equal (here the
sparse side, both 5), the fusion raises ZeroDivisionError at the first
document — the code has no guard for a zero-width range, contrary to the
spec's required recovery. -/
theorem c3_zero_range_raises_zero_division :
    hybrid_rerank_topic [("d1", (1:ℚ)), ("d2", 1/2)] [("d1", 5), ("d2", 5)]
      (1/2) 40 true false
    = Except.error PyError.zeroDivisionError := by
  simp only [hybrid_rerank_topic, mapScores, fuse_doc, combine, pyDict, dictUpdate,
    alookup, unionKeys, pyMin, pyMax, List.insertionSort, List.orderedInsert, scoreGe,
    String.reduceEq, List.foldl, List.map, List.filter, List.mem_cons,
    List.mem_singleton, List.not_mem_nil, or_false, false_or, decide_eq_true_eq]
  norm_num [scoreGe, List.orderedInsert, List.take]

/-- C4 (amended): every fused ranking is sorted by descending combined score;
the `hybrid_pipeline.py` variant truncates to the given result limit `k`,
while the older `HybridPipeline.py` variant truncates to the hardcoded 40, so
its output can exceed a result limit smaller than 40 (see the
counterexample) but never exceeds 40. -/
theorem c4_sorted_and_truncated (dense sparse : CandidateList) (alpha : Score) (k : ℕ)
    (normalization weight_on_dense : Bool) (out out' : List (DocId × Score))
    (h : hybrid_rerank_topic dense sparse alpha k normalization weight_on_dense
      = Except.ok out)
    (h' : hybrid_rerank_topic_old dense sparse alpha k normalization weight_on_dense
      = Except.ok out') :
    (List.Sorted scoreGe out ∧ out.length ≤ k)
      ∧ (List.Sorted scoreGe out' ∧ out'.length ≤ 40) := by
  constructor
  · simp only [hybrid_rerank_topic] at h
    split at h
    · cases h
    · next scored _ =>
      cases h
      refine ⟨List.Pairwise.sublist (List.take_sublist _ _)
        (List.sorted_insertionSort scoreGe scored), ?_⟩
      rw [List.length_take]
      exact min_le_left _ _
  · simp only [hybrid_rerank_topic_old] at h'
    split at h'
    · cases h'
    · next scored _ =>
      cases h'
      refine ⟨List.Pairwise.sublist (List.take_sublist _ _)
        (List.sorted_insertionSort scoreGe scored), ?_⟩
      rw [List.length_take]
      exact min_le_left _ _

/-- C4 counterexample: the older variant, given result limit 1 and two dense
candidates, returns both of them — its output length 2 exceeds the given
limit 1, because line 78 truncates with the literal 40. -/
theorem c4_counterexample_hardcoded_limit :
    hybrid_rerank_topic_old [("d1", (3:ℚ)), ("d2", 1)] [] 1 1 false false
        = Except.ok [("d1", 3), ("d2", 1)]
      ∧ ¬ ((2:ℕ) ≤ 1) := by
  constructor
  · simp only [hybrid_rerank_topic_old, mapScores, fuse_doc, combine, pyDict, dictUpdate,
      alookup, unionKeys, pyMin, pyMax, List.insertionSort, List.orderedInsert, scoreGe,
      String.reduceEq, List.foldl, List.map, List.filter, List.mem_cons,
      List.mem_singleton, List.not_mem_nil, or_false, false_or, decide_eq_true_eq]
    norm_num [scoreGe, List.orderedInsert, List.take]
  · decide

/-- C4 witness: both variants applied to a one-document topic with limit 1. -/
theorem c4_witness :
    (List.Sorted scoreGe [("d1", (3:ℚ))] ∧ [("d1", (3:ℚ))].length ≤ 1)
      ∧ (List.Sorted scoreGe [("d1", (3:ℚ))] ∧ [("d1", (3:ℚ))].length ≤ 40) :=
  c4_sorted_and_truncated [("d1", (3:ℚ))] [] 1 1 false false
    [("d1", 3)] [("d1", 3)]
    (by
      simp only [hybrid_rerank_topic, mapScores, fuse_doc, combine, pyDict, dictUpdate,
        alookup, unionKeys, pyMin, pyMax, List.insertionSort, List.orderedInsert, scoreGe,
        String.reduceEq, List.foldl, List.map, List.filter, List.mem_cons,
        List.mem_singleton, List.not_mem_nil, or_false, false_or, decide_eq_true_eq]
      norm_num [scoreGe, List.orderedInsert, List.take])
    (by
      simp only [hybrid_rerank_topic_old, mapScores, fuse_doc, combine, pyDict, dictUpdate,
        alookup, unionKeys, pyMin, pyMax, List.insertionSort, List.orderedInsert, scoreGe,
        String.reduceEq, List.foldl, List.map, List.filter, List.mem_cons,
        List.mem_singleton, List.not_mem_nil, or_false, false_or, decide_eq_true_eq]
      norm_num [scoreGe, List.orderedInsert, List.take])

/-- C10: on success, the fused output has exactly the dense map's topic keys
in order — a topic present only in the sparse map is silently absent — and
every dense-side topic key must occur among the sparse map's keys (otherwise
the sparse lookup raises KeyError and no output is produced). -/
theorem c10_output_topics_are_dense_topics
    (dense_results sparse_results : List (String × CandidateList)) (alpha : Score)
    (k : ℕ) (normalization weight_on_dense : Bool)
    (out : List (String × List (DocId × Score)))
    (h : hybrid_rerank dense_results sparse_results alpha k normalization weight_on_dense
      = Except.ok out) :
    out.map Prod.fst = dense_results.map Prod.fst
      ∧ ∀ key ∈ dense_results.map Prod.fst, key ∈ sparse_results.map Prod.fst := by
  induction dense_results generalizing out with
  | nil =>
    rw [hybrid_rerank] at h
    cases h
    simp
  | cons e rest ih =>
    rw [hybrid_rerank] at h
    split at h
    · cases h
    · next sl hsl =>
      split at h
      · cases h
      · next o _ =>
        split at h
        · cases h
        · next tail htail =>
          cases h
          obtain ⟨h1, h2⟩ := ih tail htail
          constructor
          · rw [List.map_cons, List.map_cons, h1]
          · intro key hkey
            simp only [List.map_cons, List.mem_cons] at hkey
            rcases hkey with rfl | hk
            · exact alookup_some_mem hsl
            · exact h2 key hk

/-- C10 witness: one dense topic whose key is also a sparse key. -/
theorem c10_witness :
    [(("0" : String), [(("d1" : DocId), (1:ℚ))])].map Prod.fst
        = [(("0" : String), [(("d1" : DocId), (1:ℚ))])].map Prod.fst
      ∧ ∀ key ∈ [(("0" : String), [(("d1" : DocId), (1:ℚ))])].map Prod.fst,
          key ∈ [(("0" : String), ([] : CandidateList))].map Prod.fst := by
  have h := c10_output_topics_are_dense_topics
    [("0", [("d1", (1:ℚ))])] [("0", ([] : CandidateList))] 1 1 false false
    [("0", [("d1", 1)])]
    (by
      simp only [hybrid_rerank, hybrid_rerank_topic, mapScores, fuse_doc, combine,
        pyDict, dictUpdate, alookup, unionKeys, pyMin, pyMax, List.insertionSort,
        List.orderedInsert, scoreGe, String.reduceEq, List.foldl, List.map, List.filter,
        List.mem_cons, List.mem_singleton, List.not_mem_nil, or_false, false_or,
        decide_eq_true_eq]
      norm_num [scoreGe, List.orderedInsert, List.take, mapScores, alookup])
  exact ⟨rfl, h.2⟩

/-! ### Claims about result assembly -/

/-- `Pipeline.save_trec` emits, for one topic with n ids, rows whose ranks are
exactly 1, ..., n in the order of the ids list. -/
theorem save_trec_rows_ranks (model_name : String) (key : ℤ) (ids : List DocId)
    (scores : List Score) :
    (save_trec_rows model_name [(key, (ids, scores))]).map TrecRow.rank
      = (List.range ids.length).map (fun i => i + 1) := by
  simp [save_trec_rows, trec_row, List.map_map, Function.comp]

/-- C5: on a topic with ids `["a", "b"]`, `BasePipeline.save_trec` emits a
single record — the last row, with rank 2 — because its append statement sits
outside the inner row loop, while `Pipeline.save_trec` emits the two records
with ranks 1 and 2 that the claim requires. -/
theorem c5_base_save_trec_emits_only_last_row :
    base_save_trec_rows "m" [((1:ℤ), (["a", "b"], [(1:ℚ), 1/2]))]
        = some [{ topic := "1", q0 := "Q0", doc := "b", rank := 2, score := 1/2, tag := "m" }]
      ∧ save_trec_rows "m" [((1:ℤ), (["a", "b"], [(1:ℚ), 1/2]))]
        = [{ topic := "1", q0 := "Q0", doc := "a", rank := 1, score := 1, tag := "m" },
           { topic := "1", q0 := "Q0", doc := "b", rank := 2, score := 1/2, tag := "m" }] :=
  ⟨rfl, rfl⟩

/-! ### Claims about query cleaning -/

theorem collapse_spaces_cons : ∀ (xs : List Char) (x : Char),
    ∃ t, collapse_spaces (x :: xs) = x :: t := by
  intro xs
  induction xs with
  | nil => intro x; exact ⟨[], rfl⟩
  | cons y r ih =>
    intro x
    simp only [collapse_spaces]
    by_cases h : x = ' ' ∧ y = ' '
    · obtain ⟨t, ht⟩ := ih y
      rw [if_pos h, ht]
      exact ⟨t, by rw [h.1, h.2]⟩
    · exact ⟨collapse_spaces (y :: r), by rw [if_neg h]⟩

theorem collapse_spaces_chain : ∀ l : List Char,
    List.Chain' (fun a b => ¬(a = ' ' ∧ b = ' ')) (collapse_spaces l) := by
  intro l
  induction l with
  | nil => simp [collapse_spaces]
  | cons x xs ih =>
    cases xs with
    | nil => simp [collapse_spaces]
    | cons y r =>
      simp only [collapse_spaces]
      by_cases h : x = ' ' ∧ y = ' '
      · rw [if_pos h]
        exact ih
      · rw [if_neg h]
        obtain ⟨t, ht⟩ := collapse_spaces_cons r y
        rw [ht]
        rw [ht] at ih
        exact List.chain'_cons.mpr ⟨h, ih⟩

theorem collapse_spaces_filter (l : List Char) :
    (collapse_spaces l).filter (fun c => !(c == ' '))
      = l.filter (fun c => !(c == ' ')) := by
  induction l with
  | nil => rfl
  | cons x xs ih =>
    cases xs with
    | nil => rfl
    | cons y r =>
      simp only [collapse_spaces]
      by_cases h : x = ' ' ∧ y = ' '
      · rw [if_pos h]
        simp [List.filter_cons, h.1, ih]
      · rw [if_neg h]
        simp only [List.filter_cons, ih]

theorem translate_punct_filter (cs : List Char) :
    (translate_punct cs).filter (fun c => !(c == ' '))
      = cs.filter (fun c => !(isPunct c) && !(c == ' ')) := by
  induction cs with
  | nil => rfl
  | cons c rest ih =>
    simp only [translate_punct, List.map_cons] at ih ⊢
    by_cases hp : isPunct c
    · simp [List.filter_cons, hp, ih]
    · by_cases hs : c = ' '
      · simp [List.filter_cons, hp, hs, ih]
      · simp [List.filter_cons, hp, hs, ih]

/-- C8: query cleaning replaces every ASCII punctuation character by one space
and collapses space runs to one: on `"Dogs, or cats?!"` it yields
`"Dogs or cats "` with the trailing space preserved; in general the cleaned
query never has two adjacent spaces, and its non-space characters are exactly
the input's characters that are neither punctuation nor spaces, in order. -/
theorem c8_remove_punctuation_behaviour :
    remove_punctuation "Dogs, or cats?!" = "Dogs or cats "
      ∧ (∀ q : String, List.Chain' (fun a b => ¬(a = ' ' ∧ b = ' '))
          (remove_punctuation q).toList)
      ∧ (∀ q : String, (remove_punctuation q).toList.filter (fun c => !(c == ' '))
          = q.toList.filter (fun c => !(isPunct c) && !(c == ' '))) := by
  refine ⟨by decide, fun q => ?_, fun q => ?_⟩
  · exact collapse_spaces_chain (translate_punct q.toList)
  · exact (collapse_spaces_filter (translate_punct q.toList)).trans
      (translate_punct_filter q.toList)

/-! ### Claims about the evaluation tail of compute_results -/

/-- C9 counterexample: with evaluation requested and no produced results path,
`compute_results` reaches the outcome "error printed, metric report None" and
not the fatal error the claim requires. -/
theorem c9_counterexample_no_fatal_error :
    compute_results_eval_tail true none = EvalOutcome.returnedNone true
      ∧ EvalOutcome.returnedNone true ≠ EvalOutcome.raisedError :=
  ⟨rfl, by decide⟩

/-- C9 (amended): when evaluation is requested and the results path was not
produced, the run prints an explicit ERROR message and continues, returning
None for the metric report instead of failing fatally; with a produced path
the report is computed, and without the evaluate flag None is returned
silently. -/
theorem c9_missing_results_path_prints_and_returns_none :
    compute_results_eval_tail true none = EvalOutcome.returnedNone true
      ∧ (∀ p : String, compute_results_eval_tail true (some p)
          = EvalOutcome.returnedReport p)
      ∧ compute_results_eval_tail false none = EvalOutcome.returnedNone false :=
  ⟨rfl, fun _ => rfl, rfl⟩

/-! ### Claims about create_scores_dict -/

theorem create_scores_dict_preserve (topics : List ℤ) :
    ∀ (rest : List (String × CandidateList))
      (data out : List (ℤ × (List DocId × List Score)))
      (t : ℤ) (v : List DocId × List Score),
      rest.foldlM (create_scores_dict_step topics) data = some out →
      (t, v) ∈ data →
      (∀ e ∈ rest, ∀ i, pyInt? e.1 = some i → topics.get? i ≠ some t) →
      (t, v) ∈ out := by
  intro rest
  induction rest with
  | nil =>
    intro data out t v h hm _
    rw [List.foldlM_nil] at h
    cases h
    exact hm
  | cons e rs ih =>
    intro data out t v h hm hno
    rw [List.foldlM_cons] at h
    cases hstep : create_scores_dict_step topics data e with
    | none => rw [hstep] at h; cases h
    | some data' =>
      rw [hstep] at h
      simp only [Option.bind_eq_bind, Option.some_bind] at h
      unfold create_scores_dict_step at hstep
      split at hstep
      · cases hstep
      · next i hi =>
        split at hstep
        · cases hstep
        · next tid htid =>
          cases hstep
          have hne : t ≠ tid := by
            intro hteq
            exact hno e (List.mem_cons_self e rs) i hi (hteq ▸ htid)
          exact ih _ out t v h (mem_dictUpdate_of_ne hm tid _ hne)
            (fun e' he' => hno e' (List.mem_cons_of_mem e he'))

theorem create_scores_dict_mem (topics : List ℤ) :
    ∀ (scores : List (String × CandidateList))
      (data out : List (ℤ × (List DocId × List Score))),
      topics.Nodup →
      (scores.map (fun e => pyInt? e.1)).Nodup →
      scores.foldlM (create_scores_dict_step topics) data = some out →
      ∀ (key : String) (cl : CandidateList), (key, cl) ∈ scores →
      ∃ i t, pyInt? key = some i ∧ topics.get? i = some t ∧
        (t, ((pyDict cl).map Prod.fst, (pyDict cl).map Prod.snd)) ∈ out := by
  intro scores
  induction scores with
  | nil =>
    intro data out _ _ _ key cl hm
    simp at hm
  | cons e rs ih =>
    intro data out ht hp h key cl hm
    rw [List.foldlM_cons] at h
    cases hstep : create_scores_dict_step topics data e with
    | none => rw [hstep] at h; cases h
    | some data' =>
      rw [hstep] at h
      simp only [Option.bind_eq_bind, Option.some_bind] at h
      rw [List.map_cons, List.nodup_cons] at hp
      rcases List.mem_cons.mp hm with heq | hmem
      · unfold create_scores_dict_step at hstep
        split at hstep
        · cases hstep
        · next i hi =>
          split at hstep
          · cases hstep
          · next tid htid =>
            cases hstep
            have hkey : pyInt? key = some i := by rw [← heq] at hi; exact hi
            have hval : cl = e.2 := by rw [← heq]
            refine ⟨i, tid, hkey, htid, ?_⟩
            refine create_scores_dict_preserve topics rs _ out tid _ h ?_ ?_
            · rw [hval]
              exact mem_dictUpdate_self _ tid _
            · intro e' he' j hj htj
              have hji : pyInt? e'.1 ≠ some i := by
                intro hcontr
                refine hp.1 ?_
                have hmm : pyInt? e'.1 ∈ List.map (fun x => pyInt? x.1) rs :=
                  List.mem_map_of_mem (fun x => pyInt? x.1) he'
                rwa [hcontr, ← hi] at hmm
              refine hji ?_
              rw [hj]
              congr 1
              obtain ⟨hjlen, _⟩ := List.get?_eq_some.mp htj
              exact List.get?_inj hjlen ht (htj.trans htid.symm)
      · exact ih data' out ht hp.2 h key cl hmem

/-- C6: `__create_scores_dict` stores the candidate list found under the
string positional key "i" under the real topic id `topics[int(i)]` (given
distinct topic ids and distinct parsed positional keys, as every search
result map has). -/
theorem c6_create_scores_dict_remaps_positional_keys
    (scores : List (String × CandidateList)) (topics : List ℤ)
    (out : List (ℤ × (List DocId × List Score)))
    (ht : topics.Nodup) (hp : (scores.map (fun e => pyInt? e.1)).Nodup)
    (h : create_scores_dict scores topics = some out) :
    ∀ (key : String) (cl : CandidateList), (key, cl) ∈ scores →
      ∃ i t, pyInt? key = some i ∧ topics.get? i = some t ∧
        (t, ((pyDict cl).map Prod.fst, (pyDict cl).map Prod.snd)) ∈ out :=
  fun key cl hm => create_scores_dict_mem topics scores [] out ht hp h key cl hm

/-- C6 witness: positional key "0" with `topics = [7, 12]` lands under topic
7, not under a literal key 0 or 1. -/
theorem c6_witness :
    ∃ i t, pyInt? "0" = some i ∧ List.get? [(7:ℤ), 12] i = some t
      ∧ (t, ((["d1"] : List DocId), ([1] : List Score)))
          ∈ [((7:ℤ), ((["d1"] : List DocId), ([1] : List Score)))] :=
  c6_create_scores_dict_remaps_positional_keys
    [("0", [("d1", (1:ℚ))])] [7, 12] [(7, (["d1"], [1]))]
    (by decide) (by simp) rfl "0" [("d1", (1:ℚ))] (by simp)

/-- C7 (amended): on a topic whose candidate list repeats a document id, the
`{ids, scores}` entry built by `__create_scores_dict` keeps the document once
at its first-occurrence position, but the score kept for it is the LAST
occurrence's score (Python dict comprehension semantics), not the first
occurrence's. -/
theorem c7_dedup_first_position_last_score
    (scores : List (String × CandidateList)) (topics : List ℤ)
    (out : List (ℤ × (List DocId × List Score))) (key : String) (cl : CandidateList)
    (ht : topics.Nodup) (hp : (scores.map (fun e => pyInt? e.1)).Nodup)
    (h : create_scores_dict scores topics = some out) (hm : (key, cl) ∈ scores) :
    ∃ t, (t, ((pyDict cl).map Prod.fst, (pyDict cl).map Prod.snd)) ∈ out
      ∧ (pyDict cl).map Prod.fst = firstKeys (cl.map Prod.fst)
      ∧ ∀ d, alookup (pyDict cl) d = lastValue cl d := by
  obtain ⟨i, t, _, _, hmem⟩ := create_scores_dict_mem topics scores [] out ht hp h key cl hm
  exact ⟨t, hmem, pyDict_keys cl, fun d => alookup_pyDict cl d⟩

/-- C7 counterexample: the candidate list `[(d1,1),(d2,2),(d1,3)]` becomes
ids `[d1, d2]` with scores `[3, 2]` — the first occurrence of d1 fixes its
position but its score is the last occurrence's 3, so the claimed output
`[1, 2]` is wrong. -/
theorem c7_counterexample_last_score_wins :
    create_scores_dict [("0", [("d1", (1:ℚ)), ("d2", 2), ("d1", 3)])] [5]
        = some [((5:ℤ), (["d1", "d2"], [3, 2]))]
      ∧ ¬ ([(3:ℚ), 2] = [(1:ℚ), 2]) :=
  ⟨rfl, by norm_num⟩

/-- C7 witness: a repeated id keeps its first position and last score. -/
theorem c7_witness :
    ∃ t, (t, ((["a"] : List DocId), ([2] : List Score)))
          ∈ [((5:ℤ), ((["a"] : List DocId), ([2] : List Score)))]
      ∧ (["a"] : List DocId) = firstKeys ["a", "a"]
      ∧ ∀ d, alookup [("a", (2:ℚ))] d = lastValue [("a", (1:ℚ)), ("a", 2)] d :=
  c7_dedup_first_position_last_score
    [("0", [("a", (1:ℚ)), ("a", 2)])] [5] [(5, (["a"], [2]))] "0" [("a", (1:ℚ)), ("a", 2)]
    (by decide) (by simp) rfl (by simp)

end ArgRetrieval
